import Mathlib

/-!
# Verification of the chain core against its specification

Shallow embedding of the relevant parts of the source tree
(`chain-core/src/tx/fee/mod.rs`, `chain-abci/src/liveness.rs`,
`chain-abci/src/app/{mod,app_init,validate_tx}.rs`) and proofs of the
spec claims about them.

Machine integers are modelled as `Nat` with explicit reduction modulo
`2^64` wherever the Rust code performs `u64` arithmetic that can wrap
(release-profile semantics: the source itself notes that overflow
checks are not enabled).  Fallible code (panics, `expect`, `unwrap`)
is modelled with `Option`: `none` marks a panic.
-/

/-- `2^64`, the modulus of Rust `u64` arithmetic. -/
def u64Mod : Nat := 18446744073709551616

namespace Milli

/-- `impl Add for Milli`: plain (unchecked) `u64` addition of the raw
millis; wraps modulo `2^64` in release builds. -/
def add (a b : Nat) : Nat := (a + b) % u64Mod

/-- `impl Mul for Milli`: the product is taken in `u128` (exact for two
`u64` factors), divided by 1000, and cast back with `as u64`
(truncation modulo `2^64`). -/
def mul (a b : Nat) : Nat := (a * b / 1000) % u64Mod

/-- `impl Div for Milli`: `a*1000` in `u128`, divided by `b`, cast back
with `as u64`.  Division by zero panics (`none`). -/
def div (a b : Nat) : Option Nat :=
  if b = 0 then none else some ((a * 1000 / b) % u64Mod)

/-- `Milli::diff`: absolute difference of the raw values. -/
def diff (a b : Nat) : Nat := if b < a then a - b else b - a

/-- `Milli::to_integral`: ceiling division of the raw value by 1000. -/
def to_integral (a : Nat) : Nat :=
  if a % 1000 = 0 then a / 1000 else a / 1000 + 1

/-- `Milli::improve_sqrt`: one Newton step,
`(estimate + self/estimate) >> 1`, with the addition wrapping and the
division panicking on a zero estimate. -/
def improve_sqrt (s e : Nat) : Option Nat :=
  (div s e).map (fun d => add e d / 2)

/-- Outcome of running the `Milli::sqrt` loop with fuel. -/
inductive SqrtOutcome where
  | ok (v : Nat)
  | divByZero
  | outOfFuel
deriving DecidableEq, Repr

/-- The `while difference > 1` loop of `Milli::sqrt`; arguments are the
remaining fuel, the current `sqrt` estimate and the current
`improved_sqrt`. -/
def sqrtGo (s : Nat) : Nat → Nat → Nat → SqrtOutcome
  | 0, _, _ => .outOfFuel
  | fuel + 1, sq, imp =>
    if 1 < diff sq imp then
      match improve_sqrt s imp with
      | none => .divByZero
      | some imp2 => sqrtGo s fuel imp imp2
    else .ok imp

/-- `Milli::sqrt`: start from the estimate `1.0` (raw 1000) and iterate
Newton steps until two successive estimates differ by at most one
milli. -/
def sqrt (fuel s : Nat) : SqrtOutcome :=
  match improve_sqrt s 1000 with
  | none => .divByZero
  | some imp => sqrtGo s fuel 1000 imp

end Milli

/-- C7 counterexample: Milli addition does not saturate.  At
`a = b = 2^63` the sum of the raw values is `2^64`, so a saturating
addition would return `2^64 - 1`; the code's unchecked `u64` addition
wraps to `0`. -/
theorem milli_add_not_saturating :
    Milli.add 9223372036854775808 9223372036854775808 = 0 ∧
    min (9223372036854775808 + 9223372036854775808) (u64Mod - 1) =
      u64Mod - 1 ∧
    (0 : Nat) ≠ u64Mod - 1 := by
  refine ⟨by decide, by decide, by decide⟩

/-- C7 (amended): Milli addition is plain unchecked `u64` addition: for
raw values below `2^64` the result is the exact sum when it fits, and
otherwise wraps around, yielding the sum minus `2^64`. -/
theorem milli_add_wraps (a b : Nat) (ha : a < u64Mod) (hb : b < u64Mod) :
    Milli.add a b = if a + b < u64Mod then a + b else a + b - u64Mod := by
  unfold Milli.add u64Mod at *
  split <;> omega

/-- C7 witness: the amended theorem at `a = 2^63`, `b = 2^63`. -/
theorem milli_add_wraps_witness :
    Milli.add 9223372036854775808 9223372036854775808 =
      if 9223372036854775808 + 9223372036854775808 < u64Mod then
        9223372036854775808 + 9223372036854775808
      else 9223372036854775808 + 9223372036854775808 - u64Mod :=
  milli_add_wraps 9223372036854775808 9223372036854775808
    (by decide) (by decide)

/-- C8 counterexample: with `a = 1.999` and `b = 0.001`,
`(a*b)/b = 1.000` while `a = 1.999`, an error of 999 milli, so
`(a·b)/b` is not within ±1 milli of `a` for all nonzero `b`. -/
theorem milli_mul_div_far :
    Milli.div (Milli.mul 1999 1) 1 = some 1000 ∧
    Milli.diff 1000 1999 = 999 ∧ ¬(Milli.diff 1000 1999 ≤ 1) := by
  refine ⟨by decide, by decide, by decide⟩

/-- C8 (amended): for Milli values `a`, `b` with `b ≥ 1.0` (raw value
at least 1000) and no truncation in the product (`a·b/1000 < 2^64`),
the result of `(a*b)/b` differs from `a` by at most one milli. -/
theorem milli_mul_div_approx (a b : Nat) (ha : a < u64Mod)
    (hb : 1000 ≤ b) (hov : a * b / 1000 < u64Mod) :
    ∃ r, Milli.div (Milli.mul a b) b = some r ∧ Milli.diff r a ≤ 1 := by
  have hb0 : b ≠ 0 := by omega
  obtain ⟨m, hm⟩ : ∃ m, a * b / 1000 = m := ⟨_, rfl⟩
  have hmul : Milli.mul a b = m := by
    unfold Milli.mul
    rw [hm] at hov ⊢
    exact Nat.mod_eq_of_lt hov
  obtain ⟨r, hr⟩ : ∃ r, m * 1000 / b = r := ⟨_, rfl⟩
  -- bracket `m * 1000` between `r * b` and `r * b + b`
  have hd : r * b + m * 1000 % b = m * 1000 := by
    have h := Nat.div_add_mod (m * 1000) b
    rw [Nat.mul_comm b, hr] at h
    exact h
  have hmb : m * 1000 % b < b := Nat.mod_lt _ (by omega)
  -- bracket `a * b` between `m * 1000` and `m * 1000 + 1000` (via `hm`)
  have h1 : m * 1000 ≤ a * b ∧ a * b < m * 1000 + 1000 := by omega
  -- upper bound: r ≤ a
  have hra : r ≤ a := by
    by_contra hlt
    push_neg at hlt
    have h2 : (a + 1) * b ≤ r * b := Nat.mul_le_mul_right b hlt
    have h3 : (a + 1) * b = a * b + b := by ring
    omega
  -- lower bound: a ≤ r + 1
  have har : a ≤ r + 1 := by
    by_contra hlt
    push_neg at hlt
    have h2 : (r + 2) * b ≤ a * b := Nat.mul_le_mul_right b hlt
    have h3 : (r + 2) * b = r * b + 2 * b := by ring
    omega
  have hrlt : r < u64Mod := lt_of_le_of_lt hra ha
  refine ⟨r, ?_, ?_⟩
  · unfold Milli.div
    rw [if_neg hb0, hmul, hr, Nat.mod_eq_of_lt hrlt]
  · unfold Milli.diff
    split <;> omega

/-- C8 witness: the amended theorem at `a = 1.999`, `b = 1.0`. -/
theorem milli_mul_div_approx_witness :
    ∃ r, Milli.div (Milli.mul 1999 1000) 1000 = some r ∧
      Milli.diff r 1999 ≤ 1 :=
  milli_mul_div_approx 1999 1000 (by decide) (by decide) (by decide)

/-- C10: at raw input `2^64 - 1000` the first Newton step computes
`1000 + (s/1.0)` which wraps to `0`, the loop continues (the estimates
differ by 1000), and the next `improve_sqrt` divides by the zero
estimate: `Milli::sqrt` panics instead of terminating. -/
theorem milli_sqrt_div_by_zero :
    Milli.sqrt 10 (u64Mod - 1000) = Milli.SqrtOutcome.divByZero := by
  decide

namespace LivenessTracker

/-- `LivenessTracker::new`: a bitset of `block_signing_window` ones
(the initial assumption is that the validator is live).  The `BitVec`
is modelled as a `List Bool`. -/
def new (block_signing_window : Nat) : List Bool :=
  List.replicate block_signing_window true

/-- `LivenessTracker::update`: set the bit at
`(block_height - 1) % window` to `signed`. -/
def update (l : List Bool) (block_height : Nat) (signed : Bool) : List Bool :=
  l.set ((block_height - 1) % l.length) signed

/-- The `liveness.iter().filter(|x| !x).count()` of `is_live`: the
number of zero bits. -/
def zeroCount (l : List Bool) : Nat := (l.filter (fun x => !x)).length

/-- `LivenessTracker::is_live`: live iff the zero count is strictly
below `missed_block_threshold`. -/
def is_live (l : List Bool) (missed_block_threshold : Nat) : Bool :=
  zeroCount l < missed_block_threshold

/-- `packByte`: the big-endian packing of (at most) eight bits into one
byte used by `BitVec::to_bytes`. -/
def packByte (bits : List Bool) : Nat :=
  bits.foldl (fun acc b => 2 * acc + (if b then 1 else 0)) 0

/-- `BitVec::to_bytes`: pack the bits eight at a time, most significant
bit first, padding the final byte with `false`. -/
def to_bytes : List Bool → List Nat
  | [] => []
  | a :: as =>
    packByte ((a :: as.take 7) ++ List.replicate (7 - (as.take 7).length) false) ::
      to_bytes (as.drop 7)
termination_by l => l.length
decreasing_by simp [List.length_drop]; omega

/-- `unpackByte`: the eight bits of one byte, most significant first
(inverse direction of `BitVec::from_bytes`). -/
def unpackByte (n : Nat) : List Bool :=
  [n.testBit 7, n.testBit 6, n.testBit 5, n.testBit 4,
   n.testBit 3, n.testBit 2, n.testBit 1, n.testBit 0]

/-- `BitVec::from_bytes`: concatenate the bits of every byte. -/
def from_bytes : List Nat → List Bool
  | [] => []
  | b :: bs => unpackByte b ++ from_bytes bs

/-- `Encode for LivenessTracker`: the window length cast `as u16`,
followed by the packed byte vector. -/
def encode (l : List Bool) : Nat × List Nat :=
  (l.length % 65536, to_bytes l)

/-- `Decode for LivenessTracker`: read the length and the bytes,
unpack, and truncate the bit vector to the stored length. -/
def decode (p : Nat × List Nat) : List Bool :=
  (from_bytes p.2).take p.1

theorem unpackByte_packByte8 : ∀ (b0 b1 b2 b3 b4 b5 b6 b7 : Bool),
    unpackByte (packByte [b0, b1, b2, b3, b4, b5, b6, b7]) =
      [b0, b1, b2, b3, b4, b5, b6, b7] := by decide

theorem unpackByte_packByte (c : List Bool) (h : c.length = 8) :
    unpackByte (packByte c) = c := by
  obtain ⟨b0, c, rfl⟩ := List.exists_of_length_succ c h
  simp only [List.length_cons, Nat.succ_inj] at h
  obtain ⟨b1, c, rfl⟩ := List.exists_of_length_succ c h
  simp only [List.length_cons, Nat.succ_inj] at h
  obtain ⟨b2, c, rfl⟩ := List.exists_of_length_succ c h
  simp only [List.length_cons, Nat.succ_inj] at h
  obtain ⟨b3, c, rfl⟩ := List.exists_of_length_succ c h
  simp only [List.length_cons, Nat.succ_inj] at h
  obtain ⟨b4, c, rfl⟩ := List.exists_of_length_succ c h
  simp only [List.length_cons, Nat.succ_inj] at h
  obtain ⟨b5, c, rfl⟩ := List.exists_of_length_succ c h
  simp only [List.length_cons, Nat.succ_inj] at h
  obtain ⟨b6, c, rfl⟩ := List.exists_of_length_succ c h
  simp only [List.length_cons, Nat.succ_inj] at h
  obtain ⟨b7, c, rfl⟩ := List.exists_of_length_succ c h
  simp only [List.length_cons, Nat.succ_inj] at h
  rw [List.length_eq_zero] at h
  subst h
  exact unpackByte_packByte8 b0 b1 b2 b3 b4 b5 b6 b7

/-- Unpacking the packed bytes recovers the bits followed by the
`false` padding of the final byte. -/
theorem from_bytes_to_bytes : ∀ (n : Nat) (l : List Bool), l.length ≤ n →
    from_bytes (to_bytes l) =
      l ++ List.replicate ((8 - l.length % 8) % 8) false := by
  intro n
  induction n with
  | zero =>
    intro l hl
    have hnil : l = [] := by cases l <;> simp_all
    subst hnil
    simp [to_bytes, from_bytes]
  | succ n ih =>
    intro l hl
    cases l with
    | nil => simp [to_bytes, from_bytes]
    | cons a as =>
      rw [to_bytes, from_bytes]
      by_cases h7 : 7 ≤ as.length
      · have htl : (as.take 7).length = 7 := by
          simp [List.length_take]; omega
        have hchunk :
            ((a :: as.take 7) ++ List.replicate (7 - (as.take 7).length) false) =
              a :: as.take 7 := by
          rw [htl]
          simp
        rw [hchunk, unpackByte_packByte _ (by simp [htl]),
          ih (as.drop 7) (by
            simp only [List.length_cons] at hl
            simp only [List.length_drop]
            omega)]
        have hsplit : as.take 7 ++ as.drop 7 = as := List.take_append_drop 7 as
        have hlen : (8 - (as.drop 7).length % 8) % 8 =
            (8 - (a :: as).length % 8) % 8 := by
          simp only [List.length_drop, List.length_cons]
          omega
        rw [hlen]
        simp only [List.cons_append, List.cons.injEq, true_and]
        rw [← List.append_assoc, hsplit]
      · have hta : as.take 7 = as := List.take_of_length_le (by omega)
        have hda : as.drop 7 = [] := List.drop_eq_nil_of_le (by omega)
        rw [hta, hda, to_bytes, from_bytes]
        rw [unpackByte_packByte _ (by simp [List.length_replicate]; omega)]
        have hlen : (8 - (a :: as).length % 8) % 8 = 7 - as.length := by
          simp only [List.length_cons]
          omega
        rw [hlen]
        simp

end LivenessTracker

/-- C2: for a tracker constructed with window `w ≥ 1` (and hence for
any of its reachable states, the lists of length `w`), `update h
signed` with `h ≥ 1` sets exactly the bit at `(h-1) mod w` to `signed`
and leaves every other bit unchanged, and `is_live k` returns `true`
iff the number of zero bits is strictly less than `k`. -/
theorem liveness_update_is_live (w h k : Nat) (signed : Bool)
    (l : List Bool) (hlen : l.length = w) (hw : 1 ≤ w) (hh : 1 ≤ h) :
    (LivenessTracker.update l h signed)[(h - 1) % w]? = some signed ∧
    (∀ i, i ≠ (h - 1) % w →
      (LivenessTracker.update l h signed)[i]? = l[i]?) ∧
    (LivenessTracker.is_live l k = true ↔ LivenessTracker.zeroCount l < k) := by
  subst hlen
  refine ⟨?_, ?_, ?_⟩
  · exact List.getElem?_set_self (Nat.mod_lt _ (by omega))
  · intro i hi
    exact List.getElem?_set_ne (Ne.symm hi)
  · simp [LivenessTracker.is_live]

/-- C2 witness: `liveness_update_is_live` at a concrete 2-bit tracker,
height 3 and threshold 1. -/
theorem liveness_update_is_live_witness :
    (LivenessTracker.update [true, true] 3 false)[(3 - 1) % 2]? = some false ∧
    (∀ i, i ≠ (3 - 1) % 2 →
      (LivenessTracker.update [true, true] 3 false)[i]? = [true, true][i]?) ∧
    (LivenessTracker.is_live [true, true] 1 = true ↔
      LivenessTracker.zeroCount [true, true] < 1) :=
  liveness_update_is_live 2 3 1 false [true, true] rfl
    (by decide) (by decide)

/-- C9: decoding the encoding of any liveness tracker whose window
length fits in a `u16` recovers the tracker: the `u16` length cast is
lossless for windows up to 65535, and truncating to the stored length
removes exactly the `false` padding added when packing into bytes. -/
theorem liveness_decode_encode (l : List Bool) (h : l.length ≤ 65535) :
    LivenessTracker.decode (LivenessTracker.encode l) = l := by
  unfold LivenessTracker.encode LivenessTracker.decode
  simp only
  rw [Nat.mod_eq_of_lt (by omega),
    LivenessTracker.from_bytes_to_bytes l.length l (le_refl _),
    List.take_left]

/-- C9 witness: the round trip at a concrete 3-bit tracker. -/
theorem liveness_decode_encode_witness :
    LivenessTracker.decode (LivenessTracker.encode [true, false, true]) =
      [true, false, true] :=
  liveness_decode_encode [true, false, true] (by decide)

/-! ## The ABCI application (`chain-abci/src/app`)

Transaction ids, account addresses and trie roots are abstracted to
`Nat`; the collaborator functions whose code lives outside the
embedded tree (the SCALE codec for `TxAux`, `storage::tx::verify`, the
Merkle trie `insert_one`, the `tx_id` hash and the
`TendermintVotePower::from` conversion) are parameters of the
embedding, collected in `Env`. -/

/-- `TxoPointer`: a transaction input, `{id, index}`. -/
structure TxoPointer where
  id : Nat
  index : Nat
deriving DecidableEq, Repr

/-- The enclave-validated transaction variants of `TxEnclaveAux`, with
the payload components the ABCI handler inspects. -/
inductive TxEnclaveAux where
  | TransferTx (inputs : List TxoPointer)
  | DepositStakeTx (inputs : List TxoPointer)
  | WithdrawUnbondedStakeTx
deriving DecidableEq, Repr

/-- The transaction variants of `TxAux`. -/
inductive TxAux where
  | EnclaveTx (tx : TxEnclaveAux)
  | UnbondStakeTx
  | UnjailTx
  | NodeJoinTx
deriving DecidableEq, Repr

/-- `StakedState`, restricted to the fields the ABCI handler reads:
address, bonded amount, the `is_jailed()` flag and the optional
council-node binding (abstracted to a `Nat` payload). -/
structure StakedState where
  address : Nat
  bonded : Nat
  jailed : Bool
  council_node : Option Nat
deriving DecidableEq, Repr

/-- `NetworkParameters`, restricted to the fields the handler reads:
the linear fee policy (two raw Milli values), the required
council-node stake and the unbonding period. -/
structure NetworkParameters where
  fee_constant : Nat
  fee_coefficient : Nat
  required_council_node_stake : Nat
  unbonding_period : Nat
deriving DecidableEq, Repr

/-- `RewardsPoolState`, restricted to its `remaining` balance. -/
structure RewardsPoolState where
  remaining : Nat
deriving DecidableEq, Repr

/-- `ChainNodeState`, restricted to the fields `CheckTx`/`DeliverTx`
read and write. -/
structure ChainNodeState where
  block_time : Nat
  rewards_pool : RewardsPoolState
  network_params : NetworkParameters
deriving DecidableEq, Repr

/-- `ChainNodeApp`, restricted to the fields `CheckTx`/`DeliverTx`
read and write.  `db` is the `TX_META` column of the key-value store
(spend bitsets keyed by tx id); the three maps are modelled as
functions into `Option`. -/
structure ChainNodeApp where
  db : Nat → Option (List Bool)
  uncommitted_account_root_hash : Nat
  delivered_txs : List TxAux
  filter : List Nat
  chain_hex_id : Nat
  last_state : Option ChainNodeState
  validator_voting_power : Nat → Option Nat
  power_changed_in_block : Nat → Option Nat
  new_nodes_in_block : Nat → Option Nat
  rewards_pool_updated : Bool

/-- `ChainInfo` as passed to the transaction validator. -/
structure ChainInfo where
  min_fee_computed : Nat
  chain_hex_id : Nat
  previous_block_time : Nat
  unbonding_period : Nat
deriving DecidableEq, Repr

/-- An event key-value attribute (both rendered as strings). -/
structure Event where
  field_type : String
  attributes : List (String × String)
deriving DecidableEq, Repr

/-- A `ResponseCheckTx`/`ResponseDeliverTx`: code, log and events. -/
structure Resp where
  code : Nat
  log : String
  events : List Event
deriving DecidableEq, Repr

/-- The collaborator functions of the ABCI handler whose
implementations live outside the embedded sources; the embedding is
parametric in them. -/
structure Env where
  decode : List Nat → Except String TxAux
  verify : TxAux → ChainInfo → Nat → (Nat → Option (List Bool)) →
    Except String (Nat × Option StakedState)
  insert_one : Nat → StakedState → Nat
  tx_id : TxAux → Nat
  vote_power : Nat → Nat

/-- Modelled from the spec: the maximum coin supply bound `MAX_COIN`
(`chain-core/src/init/coin.rs` is not under the embedded sources; the
spec only requires `bonded + unbonded ≤ MAX_COIN` and checked
addition).  The concrete value is irrelevant to the theorems. -/
def MAX_COIN : Nat := 10000000000000000000

/-- Modelled from the spec: checked `Coin` addition
(`chain-core/src/init/coin.rs` is not under the embedded sources);
`none` is `CoinError::OutOfBound`. -/
def coinAdd (a b : Nat) : Option Nat :=
  if a + b ≤ MAX_COIN then some (a + b) else none

/-- Modelled from the spec: the checked `Coin::new` constructor
(`chain-core/src/init/coin.rs` is not under the embedded sources). -/
def coinNew (n : Nat) : Option Nat :=
  if n ≤ MAX_COIN then some n else none

/-- `LinearFee::estimate`: `constant + coefficient · Milli::integral(sz)`
in Milli arithmetic, rounded up to a `Coin`. -/
def linear_fee_estimate (constant coefficient sz : Nat) : Option Nat :=
  coinNew (Milli.to_integral
    (Milli.add constant (Milli.mul coefficient ((sz * 1000) % u64Mod))))

/-- `NetworkParameters::calculate_fee`, delegating to the linear fee
policy. -/
def calculate_fee (np : NetworkParameters) (num_bytes : Nat) : Option Nat :=
  linear_fee_estimate np.fee_constant np.fee_coefficient num_bytes

/-- Association-list lookup (the `BTreeMap` of `spend_utxos`). -/
def lookupA (k : Nat) : List (Nat × List Bool) → Option (List Bool)
  | [] => none
  | (k2, v) :: rest => if k = k2 then some v else lookupA k rest

/-- Association-list insert/overwrite. -/
def insertA (k : Nat) (v : List Bool) : List (Nat × List Bool) →
    List (Nat × List Bool)
  | [] => [(k, v)]
  | (k2, v2) :: rest =>
    if k = k2 then (k2, v) :: rest else (k2, v2) :: insertA k v rest

/-- `BitVec::set(i, true)`: panics (`none`) when the index is out of
bounds. -/
def setBit (l : List Bool) (i : Nat) : Option (List Bool) :=
  if i < l.length then some (l.set i true) else none

/-- The loop of `spend_utxos`: for each input, take the bitset from
the in-progress `updated_txs` map or load it from the `TX_META`
column — a missing entry is an `unwrap` panic (`none`) — and set the
bit at the input's index. -/
def spend_utxos_go (db : Nat → Option (List Bool)) :
    List TxoPointer → List (Nat × List Bool) →
    Option (List (Nat × List Bool))
  | [], acc => some acc
  | txin :: rest, acc =>
    match (match lookupA txin.id acc with
           | some bv => some bv
           | none => db txin.id) with
    | none => none
    | some bv =>
      match setBit bv txin.index with
      | none => none
      | some bv2 => spend_utxos_go db rest (insertA txin.id bv2 acc)

/-- `spend_utxos`: mark every input of the transaction as spent in the
`TX_META` column; the result is the list of buffered `dbtx.put`
writes. -/
def spend_utxos (txins : List TxoPointer) (db : Nat → Option (List Bool)) :
    Option (List (Nat × List Bool)) :=
  spend_utxos_go db txins []

/-- Modelled from the spec: the claim's (§4.4's) version of the spend
step, in which a bitset absent from the `TX_META` column is *created*
with a size matching the transaction's output count (this creation
exists nowhere in `spend_utxos`, which `unwrap`s the lookup). -/
def spend_utxos_spec (output_count : Nat → Nat) :
    List TxoPointer → (Nat → Option (List Bool)) →
    List (Nat × List Bool) → Option (List (Nat × List Bool))
  | [], _, acc => some acc
  | txin :: rest, db, acc =>
    match (match lookupA txin.id acc with
           | some bv => some bv
           | none =>
             match db txin.id with
             | some bv => some bv
             | none => some (List.replicate (output_count txin.id) false)) with
    | none => none
    | some bv =>
      match setBit bv txin.index with
      | none => none
      | some bv2 => spend_utxos_spec output_count rest db (insertA txin.id bv2 acc)

/-- Applying the buffered writes to the `TX_META` column
(`write_buffered`). -/
def applyWrites (writes : List (Nat × List Bool))
    (db : Nat → Option (List Bool)) : Nat → Option (List Bool) :=
  fun k =>
    match lookupA k writes with
    | some v => some v
    | none => db k

/-- C5 counterexample: on a database with no entry for the input's tx
id, `spend_utxos` panics (`unwrap` of the `TX_META` lookup), whereas
the claim's create-if-absent behaviour would write a fresh one-output
bitset with bit 0 set. -/
theorem spend_utxos_no_create :
    spend_utxos [⟨7, 0⟩] (fun _ => none) = none ∧
    spend_utxos_spec (fun _ => 1) [⟨7, 0⟩] (fun _ => none) [] =
      some [(7, [true])] := by
  exact ⟨rfl, rfl⟩

/-- Setting a list of bits (left fold of `List.set · true`). -/
def setBits (bv : List Bool) (idxs : List Nat) : List Bool :=
  idxs.foldl (fun b i => b.set i true) bv

/-- The indices of the inputs of `ts` that point into transaction
`id`. -/
def idxsOf (ts : List TxoPointer) (id : Nat) : List Nat :=
  (ts.filter (fun t => t.id == id)).map (fun t => t.index)

theorem setBits_length (idxs : List Nat) : ∀ (bv : List Bool),
    (setBits bv idxs).length = bv.length := by
  induction idxs with
  | nil => intro bv; rfl
  | cons i is ih =>
    intro bv
    show (setBits (bv.set i true) is).length = bv.length
    rw [ih, List.length_set]

theorem setBits_append (bv : List Bool) (is : List Nat) (i : Nat) :
    setBits bv (is ++ [i]) = (setBits bv is).set i true := by
  unfold setBits
  rw [List.foldl_append]
  rfl

theorem setBits_not_mem (idxs : List Nat) : ∀ (bv : List Bool) (j : Nat),
    j ∉ idxs → (setBits bv idxs)[j]? = bv[j]? := by
  induction idxs with
  | nil => intro bv j _; rfl
  | cons i is ih =>
    intro bv j hj
    simp only [List.mem_cons, not_or] at hj
    show (setBits (bv.set i true) is)[j]? = bv[j]?
    rw [ih _ _ hj.2]
    exact List.getElem?_set_ne (fun h => hj.1 h.symm)

theorem setBits_mem (idxs : List Nat) : ∀ (bv : List Bool) (i : Nat),
    i ∈ idxs → i < bv.length → (setBits bv idxs)[i]? = some true := by
  induction idxs with
  | nil => intro bv i hi; simp at hi
  | cons j is ih =>
    intro bv i hi hlen
    show (setBits (bv.set j true) is)[i]? = some true
    by_cases his : i ∈ is
    · exact ih _ _ his (by rw [List.length_set]; exact hlen)
    · have hij : i = j := by
        rcases List.mem_cons.mp hi with h | h
        · exact h
        · exact absurd h his
      subst hij
      rw [setBits_not_mem _ _ _ his]
      exact List.getElem?_set_self hlen

theorem mem_idxsOf (ts : List TxoPointer) (id j : Nat) :
    j ∈ idxsOf ts id ↔ ∃ u ∈ ts, u.id = id ∧ u.index = j := by
  simp only [idxsOf, List.mem_map, List.mem_filter, beq_iff_eq]
  constructor
  · rintro ⟨u, ⟨hu, hid⟩, hidx⟩
    exact ⟨u, hu, hid, hidx⟩
  · rintro ⟨u, hu, hid, hidx⟩
    exact ⟨u, ⟨hu, hid⟩, hidx⟩

theorem idxsOf_append (ts : List TxoPointer) (t : TxoPointer) (id : Nat) :
    idxsOf (ts ++ [t]) id =
      idxsOf ts id ++ (if t.id = id then [t.index] else []) := by
  unfold idxsOf
  rw [List.filter_append, List.map_append]
  congr 1
  by_cases h : t.id = id
  · simp [h]
  · simp [h]

theorem lookupA_insertA (k : Nat) (v : List Bool) :
    ∀ (acc : List (Nat × List Bool)) (id : Nat),
    lookupA id (insertA k v acc) = if id = k then some v else lookupA id acc := by
  intro acc
  induction acc with
  | nil =>
    intro id
    simp [insertA, lookupA]
  | cons p rest ih =>
    intro id
    obtain ⟨k2, v2⟩ := p
    by_cases hk : k = k2
    · subst hk
      simp only [insertA, if_pos rfl, lookupA]
      by_cases hid : id = k
      · simp [hid]
      · simp [hid]
    · simp only [insertA, if_neg hk, lookupA]
      by_cases hid : id = k2
      · subst hid
        rw [if_pos rfl, if_pos rfl, if_neg (fun h => hk h.symm)]
      · rw [if_neg hid, if_neg hid, ih]

/-- Invariant-carrying correctness of the `spend_utxos` loop: if every
remaining input points at a present, long-enough bitset, the loop
succeeds and the accumulated map holds, for every touched id, the
database bitset with all processed indices set. -/
theorem spend_utxos_go_spec (db : Nat → Option (List Bool)) :
    ∀ (rem processed : List TxoPointer) (acc : List (Nat × List Bool)),
    (∀ t ∈ processed ++ rem, ∃ bv, db t.id = some bv ∧ t.index < bv.length) →
    (∀ id, lookupA id acc =
      if idxsOf processed id = [] then none
      else (db id).map (fun bv0 => setBits bv0 (idxsOf processed id))) →
    ∃ w, spend_utxos_go db rem acc = some w ∧
      ∀ id, lookupA id w =
        if idxsOf (processed ++ rem) id = [] then none
        else (db id).map (fun bv0 => setBits bv0 (idxsOf (processed ++ rem) id)) := by
  intro rem
  induction rem with
  | nil =>
    intro processed acc _ hgood
    refine ⟨acc, rfl, ?_⟩
    simpa using hgood
  | cons t rest ih =>
    intro processed acc hpre hgood
    obtain ⟨bv0, hbv0, hidx⟩ := hpre t (by simp)
    -- the current bitset for t.id is the db bitset with the processed
    -- indices for t.id set
    have hcur :
        (match lookupA t.id acc with
         | some bv => some bv
         | none => db t.id) = some (setBits bv0 (idxsOf processed t.id)) := by
      rw [hgood t.id]
      by_cases he : idxsOf processed t.id = []
      · rw [if_pos he, hbv0, he]
        rfl
      · rw [if_neg he, hbv0]
        rfl
    have hlen2 : t.index < (setBits bv0 (idxsOf processed t.id)).length := by
      rw [setBits_length]
      exact hidx
    have hset : setBit (setBits bv0 (idxsOf processed t.id)) t.index =
        some (setBits bv0 (idxsOf processed t.id ++ [t.index])) := by
      rw [setBit, if_pos hlen2, setBits_append]
    have hstep : spend_utxos_go db (t :: rest) acc =
        spend_utxos_go db rest
          (insertA t.id (setBits bv0 (idxsOf processed t.id ++ [t.index])) acc) := by
      rw [spend_utxos_go, hcur]
      simp only [hset]
    rw [hstep]
    have hpre2 : ∀ u ∈ (processed ++ [t]) ++ rest,
        ∃ bv, db u.id = some bv ∧ u.index < bv.length := by
      intro u hu
      apply hpre
      simp only [List.append_assoc, List.mem_append, List.mem_cons,
        List.mem_singleton] at hu ⊢
      tauto
    have hne : idxsOf processed t.id ++ [t.index] ≠ [] := by simp
    have hgood2 : ∀ k,
        lookupA k (insertA t.id (setBits bv0 (idxsOf processed t.id ++ [t.index])) acc) =
          if idxsOf (processed ++ [t]) k = [] then none
          else (db k).map (fun b => setBits b (idxsOf (processed ++ [t]) k)) := by
      intro k
      rw [lookupA_insertA, idxsOf_append]
      by_cases hk : k = t.id
      · rw [if_pos hk]
        have h2 : (if t.id = k then [t.index] else ([] : List Nat)) = [t.index] :=
          if_pos hk.symm
        rw [h2, hk, if_neg hne, hbv0]
        rfl
      · rw [if_neg hk]
        have h2 : (if t.id = k then [t.index] else ([] : List Nat)) = [] :=
          if_neg (fun h => hk h.symm)
        rw [h2]
        simp only [List.append_nil]
        exact hgood k
    obtain ⟨w, hw, hws⟩ := ih (processed ++ [t])
      (insertA t.id (setBits bv0 (idxsOf processed t.id ++ [t.index])) acc)
      hpre2 hgood2
    refine ⟨w, hw, ?_⟩
    intro id
    rw [hws id]
    have : (processed ++ [t]) ++ rest = processed ++ (t :: rest) := by simp
    rw [this]

/-- C5 (amended): for each input of a transfer transaction accepted in
`DeliverTx`, provided the `TX_META` column holds a bitset for the
input's tx id that is long enough (their absence is an `unwrap` panic,
not a creation), `spend_utxos` succeeds and the write buffer maps the
input's tx id to the loaded bitset with the bit at the input's index
set to true, every index not named by an input being unchanged. -/
theorem spend_utxos_marks_inputs (txins : List TxoPointer)
    (db : Nat → Option (List Bool))
    (hpre : ∀ t ∈ txins, ∃ bv, db t.id = some bv ∧ t.index < bv.length) :
    ∃ w, spend_utxos txins db = some w ∧
      ∀ t ∈ txins, ∃ bv0 bv, db t.id = some bv0 ∧ lookupA t.id w = some bv ∧
        bv.length = bv0.length ∧ bv[t.index]? = some true ∧
        ∀ j, (∀ u ∈ txins, u.id = t.id → u.index ≠ j) → bv[j]? = bv0[j]? := by
  obtain ⟨w, hw, hws⟩ := spend_utxos_go_spec db txins [] []
    (by simpa using hpre) (by intro id; rfl)
  refine ⟨w, hw, ?_⟩
  intro t ht
  obtain ⟨bv0, hbv0, hidx⟩ := hpre t ht
  have hne : idxsOf ([] ++ txins) t.id ≠ [] := by
    simp only [List.nil_append]
    intro he
    have : t.index ∈ idxsOf txins t.id := (mem_idxsOf txins t.id t.index).mpr ⟨t, ht, rfl, rfl⟩
    rw [he] at this
    simp at this
  have hl := hws t.id
  rw [if_neg hne] at hl
  simp only [List.nil_append] at hl hne
  rw [hbv0] at hl
  refine ⟨bv0, setBits bv0 (idxsOf txins t.id), hbv0, hl, setBits_length _ _, ?_, ?_⟩
  · exact setBits_mem _ _ _ ((mem_idxsOf txins t.id t.index).mpr ⟨t, ht, rfl, rfl⟩) hidx
  · intro j hj
    apply setBits_not_mem
    intro hmem
    obtain ⟨u, hu, huid, huidx⟩ := (mem_idxsOf txins t.id j).mp hmem
    exact hj u hu huid huidx

/-- C5 witness: the amended theorem on a two-input transaction and a
database holding a three-bit bitset for tx id 7. -/
theorem spend_utxos_marks_inputs_witness :
    ∃ w, spend_utxos [⟨7, 0⟩, ⟨7, 2⟩]
        (fun k => if k = 7 then some [false, false, false] else none) = some w ∧
      ∀ t ∈ [TxoPointer.mk 7 0, TxoPointer.mk 7 2], ∃ bv0 bv,
        (fun k => if k = 7 then some [false, false, false] else none) t.id = some bv0 ∧
        lookupA t.id w = some bv ∧
        bv.length = bv0.length ∧ bv[t.index]? = some true ∧
        ∀ j, (∀ u ∈ [TxoPointer.mk 7 0, TxoPointer.mk 7 2], u.id = t.id → u.index ≠ j) →
          bv[j]? = bv0[j]? :=
  spend_utxos_marks_inputs [⟨7, 0⟩, ⟨7, 2⟩]
    (fun k => if k = 7 then some [false, false, false] else none)
    (by
      intro t ht
      simp only [List.mem_cons, List.not_mem_nil, or_false] at ht
      rcases ht with h | h <;> subst h <;> exact ⟨[false, false, false], rfl, by decide⟩)

/-- `update_account`: insert the updated account against the current
uncommitted root, returning the new root and the account. -/
def update_account (env : Env) (account : StakedState)
    (account_root_hash : Nat) : Nat × Option StakedState :=
  (env.insert_one account_root_hash account, some account)

/-- `ChainNodeApp::validate_tx_req`: decode the request bytes, compute
the minimum fee for the encoded size, and run the validator.  Success
sets code 0 and yields the parsed transaction with its paid fee and
optional updated account; a decode or verification failure sets code 1
and appends a log line.  The `ChainNodeApp` is threaded through
explicitly and returned; a missing app state or a failing fee policy
is an `expect` panic (`none`). -/
def validate_tx_req (env : Env) (app : ChainNodeApp) (tx_bytes : List Nat) :
    Option (ChainNodeApp × Resp × Option (TxAux × Nat × Option StakedState)) :=
  match env.decode tx_bytes with
  | .error e =>
    some (app, ⟨1, "failed to deserialize tx: " ++ e, []⟩, none)
  | .ok txaux =>
    match app.last_state with
    | none => none
    | some state =>
      match calculate_fee state.network_params tx_bytes.length with
      | none => none
      | some min_fee =>
        match env.verify txaux
            ⟨min_fee, app.chain_hex_id, state.block_time,
              state.network_params.unbonding_period⟩
            app.uncommitted_account_root_hash app.db with
        | .ok fee_acc =>
          some (app, ⟨0, "", []⟩, some (txaux, fee_acc.1, fee_acc.2))
        | .error err =>
          some (app, ⟨1, "verification failed: " ++ err, []⟩, none)

/-- `check_tx`: run `validate_tx_req` and return the response. -/
def check_tx (env : Env) (app : ChainNodeApp) (tx_bytes : List Nat) :
    Option (ChainNodeApp × Resp) :=
  (validate_tx_req env app tx_bytes).map (fun r => (r.1, r.2.1))

/-- Point update of a map (`BTreeMap::insert`). -/
def mapInsert (m : Nat → Option Nat) (k v : Nat) : Nat → Option Nat :=
  fun x => if x = k then some v else m x

/-- The voting-power recomputation block of `deliver_tx`
(`app/mod.rs:336-368`): when the updated account belongs to a current
validator or one whose power already changed in this block, a jailed
account is `unreachable!` (`none`); otherwise the new bonded-derived
power replaces the entry if it grew to at least the required stake,
and the entry drops to zero if the old power was at least the required
stake and the power shrank. -/
def power_update (env : Env) (validator_voting_power : Nat → Option Nat)
    (pcb : Nat → Option Nat) (required_stake : Nat)
    (maccount : Option StakedState) : Option (Nat → Option Nat) :=
  match maccount with
  | some account =>
    if (validator_voting_power account.address).isSome ||
        (pcb account.address).isSome then
      if account.jailed then
        none
      else
        let min_power := env.vote_power required_stake
        let new_power := env.vote_power account.bonded
        let old_power := (validator_voting_power account.address).getD 0
        if old_power < new_power ∧ min_power ≤ new_power then
          some (mapInsert pcb account.address new_power)
        else if min_power ≤ old_power ∧ new_power < old_power then
          some (mapInsert pcb account.address 0)
        else
          some pcb
    else
      some pcb
  | none => some pcb

/-- Modelled from the spec: the block-filter update for an accepted
transaction ("for any accepted tx, add `tx_id` to `block_filter`");
the filter insertion code is outside the embedded sources
(`chain-tx-filter` and `app/commit.rs`), so the filter is modelled as
the list of added tx ids. -/
def addToBlockFilter (filter : List Nat) (tx_id : Nat) : List Nat :=
  tx_id :: filter

/-- The per-variant processing of an accepted transaction in
`deliver_tx`: buffered `TX_META` writes, the next account root, the
returned updated account, and the `NodeJoinTx` bookkeeping
(`new_nodes_in_block`, `power_changed_in_block`).  `none` is a panic
(`unwrap`/`expect` failure). -/
def deliver_tx_process (env : Env) (app : ChainNodeApp) (txaux : TxAux)
    (macc : Option StakedState) :
    Option (List (Nat × List Bool) × Nat × Option StakedState ×
      (Nat → Option Nat) × (Nat → Option Nat)) :=
  match txaux with
  | .EnclaveTx (.TransferTx inputs) =>
    (spend_utxos inputs app.db).map (fun w =>
      (w, app.uncommitted_account_root_hash, none,
        app.new_nodes_in_block, app.power_changed_in_block))
  | .EnclaveTx (.DepositStakeTx inputs) =>
    match spend_utxos inputs app.db, macc with
    | some w, some account =>
      let ra := update_account env account app.uncommitted_account_root_hash
      some (w, ra.1, ra.2, app.new_nodes_in_block, app.power_changed_in_block)
    | _, _ => none
  | .EnclaveTx .WithdrawUnbondedStakeTx =>
    match macc with
    | some account =>
      let ra := update_account env account app.uncommitted_account_root_hash
      some ([], ra.1, ra.2, app.new_nodes_in_block, app.power_changed_in_block)
    | none => none
  | .UnbondStakeTx =>
    match macc with
    | some account =>
      let ra := update_account env account app.uncommitted_account_root_hash
      some ([], ra.1, ra.2, app.new_nodes_in_block, app.power_changed_in_block)
    | none => none
  | .UnjailTx =>
    match macc with
    | some account =>
      let ra := update_account env account app.uncommitted_account_root_hash
      some ([], ra.1, ra.2, app.new_nodes_in_block, app.power_changed_in_block)
    | none => none
  | .NodeJoinTx =>
    match macc with
    | some state =>
      match state.council_node with
      | some cn =>
        let nn := mapInsert app.new_nodes_in_block state.address cn
        let pcb := mapInsert app.power_changed_in_block state.address
          (env.vote_power state.bonded)
        let ra := update_account env state app.uncommitted_account_root_hash
        some ([], ra.1, ra.2, nn, pcb)
      | none => none
    | none => none

/-- The `valid_txs` event of an accepted transaction: the paid fee,
the updated account's address when present, and the tx id. -/
def valid_txs_event (env : Env) (txaux : TxAux) (fee : Nat)
    (maccount : Option StakedState) : Event :=
  ⟨"valid_txs",
    [("fee", toString fee)] ++
      (match maccount with
       | some account => [("account", toString account.address)]
       | none => []) ++
      [("txid", toString (env.tx_id txaux))]⟩

/-- `deliver_tx`: re-run validation; on success process the variant,
recompute voting power, emit the `valid_txs` event, append the
transaction to `delivered_txs`, add its id to the block filter, credit
the fee to the rewards pool (a checked addition whose failure is an
`expect` panic) and apply the buffered `TX_META` writes; on failure
return the validation response unchanged. -/
def deliver_tx (env : Env) (app : ChainNodeApp) (tx_bytes : List Nat) :
    Option (ChainNodeApp × Resp) :=
  match validate_tx_req env app tx_bytes with
  | none => none
  | some (app1, resp, mtxaux) =>
    match resp.code, mtxaux with
    | 0, some (txaux, fee, macc) =>
      match deliver_tx_process env app1 txaux macc with
      | none => none
      | some (writes, next_root, maccount, new_nodes2, pcb2) =>
        match app1.last_state with
        | none => none
        | some state =>
          match power_update env app1.validator_voting_power pcb2
              state.network_params.required_council_node_stake maccount with
          | none => none
          | some pcb3 =>
            match coinAdd state.rewards_pool.remaining fee with
            | none => none
            | some new_remaining =>
              some
                ({ app1 with
                    db := applyWrites writes app1.db
                    uncommitted_account_root_hash := next_root
                    delivered_txs := app1.delivered_txs ++ [txaux]
                    filter := addToBlockFilter app1.filter (env.tx_id txaux)
                    last_state := some { state with rewards_pool := ⟨new_remaining⟩ }
                    new_nodes_in_block := new_nodes2
                    power_changed_in_block := pcb3
                    rewards_pool_updated := true },
                  { resp with
                      events := resp.events ++ [valid_txs_event env txaux fee maccount] })
    | _, _ => some (app1, resp)

/-- `get_validator_mapping` (`app_init.rs:117-153`), restricted to the
voting-power map: for every council node, a jailed or under-staked
staking account maps to the power of zero coins, any other account to
the power of its bonded amount; a council node whose account is
missing from the trie is an `expect` panic. -/
def get_validator_mapping_go (env : Env) (accounts : Nat → Option StakedState)
    (required_stake : Nat) :
    List Nat → (Nat → Option Nat) → Option (Nat → Option Nat)
  | [], m => some m
  | addr :: rest, m =>
    match accounts addr with
    | none => none
    | some account =>
      get_validator_mapping_go env accounts required_stake rest
        (mapInsert m addr
          (if account.jailed || decide (account.bonded < required_stake) then
            env.vote_power 0
          else
            env.vote_power account.bonded))

/-- `get_validator_mapping`, starting from the empty map. -/
def get_validator_mapping (env : Env) (accounts : Nat → Option StakedState)
    (required_stake : Nat) (council_nodes : List Nat) :
    Option (Nat → Option Nat) :=
  get_validator_mapping_go env accounts required_stake council_nodes
    (fun _ => none)

theorem append_ne_empty (s e : String) (hs : s.length ≠ 0) : s ++ e ≠ "" := by
  intro h
  have h2 := congrArg String.length h
  rw [String.length_append] at h2
  have h0 : String.length "" = 0 := rfl
  omega

/-- Inversion of `validate_tx_req`: it returns the app unchanged and
no events; it reports code 0 with an empty log and a payload exactly
when decoding and verification both succeed, and code 1 with a
non-empty log and no payload otherwise. -/
theorem validate_tx_req_cases (env : Env) (app : ChainNodeApp)
    (tx_bytes : List Nat) (a : ChainNodeApp) (r : Resp)
    (mt : Option (TxAux × Nat × Option StakedState))
    (h : validate_tx_req env app tx_bytes = some (a, r, mt)) :
    a = app ∧ r.events = [] ∧
      ((r.code = 0 ∧ r.log = "" ∧ mt.isSome = true ∧
        (∃ txaux st min_fee res,
          env.decode tx_bytes = .ok txaux ∧
          app.last_state = some st ∧
          calculate_fee st.network_params tx_bytes.length = some min_fee ∧
          env.verify txaux
            ⟨min_fee, app.chain_hex_id, st.block_time,
              st.network_params.unbonding_period⟩
            app.uncommitted_account_root_hash app.db = .ok res)) ∨
      (r.code = 1 ∧ r.log ≠ "" ∧ mt = none)) := by
  unfold validate_tx_req at h
  split at h
  · -- decode error
    simp only [Option.some.injEq, Prod.mk.injEq] at h
    obtain ⟨h1, h2, h3⟩ := h
    subst h1
    subst h3
    refine ⟨rfl, by rw [← h2], Or.inr ⟨by rw [← h2], ?_, rfl⟩⟩
    rw [← h2]
    exact append_ne_empty _ _ (by decide)
  · rename_i txaux hd
    split at h
    · cases h
    · rename_i st hs
      split at h
      · cases h
      · rename_i min_fee hf
        split at h
        · -- verification ok
          rename_i res hv
          simp only [Option.some.injEq, Prod.mk.injEq] at h
          obtain ⟨h1, h2, h3⟩ := h
          subst h1
          subst h3
          exact ⟨rfl, by rw [← h2],
            Or.inl ⟨by rw [← h2], by rw [← h2], rfl,
              txaux, st, min_fee, res, hd, hs, hf, hv⟩⟩
        · -- verification error
          simp only [Option.some.injEq, Prod.mk.injEq] at h
          obtain ⟨h1, h2, h3⟩ := h
          subst h1
          subst h3
          refine ⟨rfl, by rw [← h2], Or.inr ⟨by rw [← h2], ?_, rfl⟩⟩
          rw [← h2]
          exact append_ne_empty _ _ (by decide)

/-- C4: `check_tx` parses and validates and never mutates the chain
state: whenever it returns, the returned `ChainNodeApp` (key-value
store, uncommitted account root, delivered transactions, rewards pool
inside `last_state`, power map and all other fields) is exactly the
input one, and the response carries code 0 (empty log) precisely when
decoding and verification both succeeded, and code 1 with a non-empty
log message otherwise. -/
theorem check_tx_no_mutation (env : Env) (app : ChainNodeApp)
    (tx_bytes : List Nat) (a : ChainNodeApp) (r : Resp)
    (h : check_tx env app tx_bytes = some (a, r)) :
    a = app ∧
      ((r.code = 0 ∧ r.log = "" ∧
        (∃ txaux st min_fee res,
          env.decode tx_bytes = .ok txaux ∧
          app.last_state = some st ∧
          calculate_fee st.network_params tx_bytes.length = some min_fee ∧
          env.verify txaux
            ⟨min_fee, app.chain_hex_id, st.block_time,
              st.network_params.unbonding_period⟩
            app.uncommitted_account_root_hash app.db = .ok res)) ∨
      (r.code = 1 ∧ r.log ≠ "")) := by
  unfold check_tx at h
  cases hval : validate_tx_req env app tx_bytes with
  | none => rw [hval] at h; cases h
  | some triple =>
    obtain ⟨a1, r1, mt⟩ := triple
    rw [hval] at h
    simp at h
    obtain ⟨h1, h2⟩ := h
    obtain ⟨hap, _, hc⟩ := validate_tx_req_cases env app tx_bytes a1 r1 mt hval
    subst h1
    subst h2
    rcases hc with ⟨hc0, hlog, _, hex⟩ | ⟨hc1, hlog, _⟩
    · exact ⟨hap, Or.inl ⟨hc0, hlog, hex⟩⟩
    · exact ⟨hap, Or.inr ⟨hc1, hlog⟩⟩

/-- C6: when `deliver_tx` rejects a transaction (nonzero response
code), the entire `ChainNodeApp` — key-value store (so no UTXO spend
bits), uncommitted account root, delivered transactions, block filter,
rewards pool inside `last_state`, power map and
`rewards_pool_updated` — is returned unchanged and no event (in
particular no `valid_txs` event) is emitted. -/
theorem deliver_tx_rejected_no_mutation (env : Env) (app : ChainNodeApp)
    (tx_bytes : List Nat) (app2 : ChainNodeApp) (resp2 : Resp)
    (h : deliver_tx env app tx_bytes = some (app2, resp2))
    (hcode : resp2.code ≠ 0) :
    app2 = app ∧ resp2.events = [] := by
  unfold deliver_tx at h
  split at h
  · cases h
  · rename_i a1 r1 mt hval
    obtain ⟨hap, hev, hc⟩ := validate_tx_req_cases env app tx_bytes a1 r1 mt hval
    subst hap
    split at h
    · -- accepted branch: the final response keeps code 0, contradiction
      have hc0 : r1.code = 0 := by assumption
      split at h
      · cases h
      · split at h
        · cases h
        · split at h
          · cases h
          · split at h
            · cases h
            · simp only [Option.some.injEq, Prod.mk.injEq] at h
              obtain ⟨_, h2⟩ := h
              exfalso
              apply hcode
              rw [← h2]
              exact hc0
    · -- rejected branch: response returned as-is, state untouched
      rename_i hnl
      simp only [Option.some.injEq, Prod.mk.injEq] at h
      obtain ⟨h1, h2⟩ := h
      subst h1
      subst h2
      exact ⟨rfl, hev⟩

/-- The conditions under which the per-variant processing of an
accepted transaction does not panic: the spend map holds a long-enough
bitset for every input, the validator returned an account when the
variant requires one, and a `NodeJoinTx` account carries a council
node. -/
def deliver_preconds (env : Env) (app : ChainNodeApp) (txaux : TxAux)
    (macc : Option StakedState) : Prop :=
  match txaux with
  | .EnclaveTx (.TransferTx inputs) =>
    (spend_utxos inputs app.db).isSome = true
  | .EnclaveTx (.DepositStakeTx inputs) =>
    (spend_utxos inputs app.db).isSome = true ∧ macc.isSome = true
  | .EnclaveTx .WithdrawUnbondedStakeTx => macc.isSome = true
  | .UnbondStakeTx => macc.isSome = true
  | .UnjailTx => macc.isSome = true
  | .NodeJoinTx => ∃ s, macc = some s ∧ s.council_node.isSome = true

theorem deliver_tx_process_some (env : Env) (app : ChainNodeApp)
    (txaux : TxAux) (macc : Option StakedState)
    (hpre : deliver_preconds env app txaux macc) :
    ∃ w root maccount nn pcb,
      deliver_tx_process env app txaux macc =
        some (w, root, maccount, nn, pcb) ∧
      (maccount = none ∨ maccount = macc) := by
  cases txaux with
  | EnclaveTx e =>
    cases e with
    | TransferTx inputs =>
      simp only [deliver_preconds] at hpre
      obtain ⟨w, hw⟩ := Option.isSome_iff_exists.mp hpre
      exact ⟨w, app.uncommitted_account_root_hash, none,
        app.new_nodes_in_block, app.power_changed_in_block,
        by simp [deliver_tx_process, hw], Or.inl rfl⟩
    | DepositStakeTx inputs =>
      simp only [deliver_preconds] at hpre
      obtain ⟨w, hw⟩ := Option.isSome_iff_exists.mp hpre.1
      obtain ⟨account, ha⟩ := Option.isSome_iff_exists.mp hpre.2
      subst ha
      exact ⟨w, env.insert_one app.uncommitted_account_root_hash account,
        some account, app.new_nodes_in_block, app.power_changed_in_block,
        by simp [deliver_tx_process, update_account, hw], Or.inr rfl⟩
    | WithdrawUnbondedStakeTx =>
      simp only [deliver_preconds] at hpre
      obtain ⟨account, ha⟩ := Option.isSome_iff_exists.mp hpre
      subst ha
      exact ⟨[], env.insert_one app.uncommitted_account_root_hash account,
        some account, app.new_nodes_in_block, app.power_changed_in_block,
        by simp [deliver_tx_process, update_account], Or.inr rfl⟩
  | UnbondStakeTx =>
    simp only [deliver_preconds] at hpre
    obtain ⟨account, ha⟩ := Option.isSome_iff_exists.mp hpre
    subst ha
    exact ⟨[], env.insert_one app.uncommitted_account_root_hash account,
      some account, app.new_nodes_in_block, app.power_changed_in_block,
      by simp [deliver_tx_process, update_account], Or.inr rfl⟩
  | UnjailTx =>
    simp only [deliver_preconds] at hpre
    obtain ⟨account, ha⟩ := Option.isSome_iff_exists.mp hpre
    subst ha
    exact ⟨[], env.insert_one app.uncommitted_account_root_hash account,
      some account, app.new_nodes_in_block, app.power_changed_in_block,
      by simp [deliver_tx_process, update_account], Or.inr rfl⟩
  | NodeJoinTx =>
    simp only [deliver_preconds] at hpre
    obtain ⟨s, hs, hcn⟩ := hpre
    obtain ⟨cn, hcn2⟩ := Option.isSome_iff_exists.mp hcn
    subst hs
    exact ⟨[], env.insert_one app.uncommitted_account_root_hash s, some s,
      mapInsert app.new_nodes_in_block s.address cn,
      mapInsert app.power_changed_in_block s.address (env.vote_power s.bonded),
      by simp [deliver_tx_process, update_account, hcn2], Or.inr rfl⟩

theorem power_update_some (env : Env) (vvp pcb : Nat → Option Nat)
    (required_stake : Nat) (macc : Option StakedState)
    (hnj : ∀ s, macc = some s → s.jailed = false) :
    ∃ m, power_update env vvp pcb required_stake macc = some m := by
  cases macc with
  | none => exact ⟨pcb, rfl⟩
  | some account =>
    have hj : account.jailed = false := hnj account rfl
    simp only [power_update, hj, Bool.false_eq_true, if_false]
    split
    · split
      · exact ⟨_, rfl⟩
      · split
        · exact ⟨_, rfl⟩
        · exact ⟨_, rfl⟩
    · exact ⟨_, rfl⟩

/-- C3: for a transaction accepted by `DeliverTx` — validation
succeeded with fee `fee`, and the per-variant processing does not
panic — provided the total-coin invariant holds before the call (the
fee was paid out of circulating coins `circ` and
`remaining + circ ≤ MAX_COIN`), the rewards-pool addition cannot
overflow (the `expect` branch is unreachable), the new `remaining`
equals the old plus the fee, the transaction is appended to
`delivered_txs`, its tx id is added to the block filter, and
`rewards_pool_updated` becomes true. -/
theorem deliver_tx_accepted (env : Env) (app : ChainNodeApp)
    (tx_bytes : List Nat) (txaux : TxAux) (fee : Nat)
    (macc : Option StakedState) (st : ChainNodeState) (circ : Nat)
    (hv : validate_tx_req env app tx_bytes =
      some (app, ⟨0, "", []⟩, some (txaux, fee, macc)))
    (hst : app.last_state = some st)
    (hpre : deliver_preconds env app txaux macc)
    (hnj : ∀ s, macc = some s → s.jailed = false)
    (hfee : fee ≤ circ)
    (hinv : st.rewards_pool.remaining + circ ≤ MAX_COIN) :
    ∃ app2 resp2, deliver_tx env app tx_bytes = some (app2, resp2) ∧
      resp2.code = 0 ∧
      coinAdd st.rewards_pool.remaining fee =
        some (st.rewards_pool.remaining + fee) ∧
      (∃ st2, app2.last_state = some st2 ∧
        st2.rewards_pool.remaining = st.rewards_pool.remaining + fee) ∧
      app2.delivered_txs = app.delivered_txs ++ [txaux] ∧
      app2.filter = addToBlockFilter app.filter (env.tx_id txaux) ∧
      app2.rewards_pool_updated = true := by
  have hadd : coinAdd st.rewards_pool.remaining fee =
      some (st.rewards_pool.remaining + fee) := by
    unfold coinAdd
    rw [if_pos (by omega)]
  obtain ⟨w, root, maccount, nn, pcb, hproc, hmm⟩ :=
    deliver_tx_process_some env app txaux macc hpre
  obtain ⟨pm, hpm⟩ := power_update_some env app.validator_voting_power pcb
    st.network_params.required_council_node_stake maccount
    (by
      intro s hs
      rcases hmm with hmN | hmE
      · rw [hmN] at hs; cases hs
      · rw [hmE] at hs; exact hnj s hs)
  have hrun : deliver_tx env app tx_bytes =
      some ({ app with
                db := applyWrites w app.db
                uncommitted_account_root_hash := root
                delivered_txs := app.delivered_txs ++ [txaux]
                filter := addToBlockFilter app.filter (env.tx_id txaux)
                last_state := some { st with
                  rewards_pool := ⟨st.rewards_pool.remaining + fee⟩ }
                new_nodes_in_block := nn
                power_changed_in_block := pm
                rewards_pool_updated := true },
             ⟨0, "", [valid_txs_event env txaux fee maccount]⟩) := by
    unfold deliver_tx
    rw [hv]
    simp only [hproc, hst, hpm, hadd, List.nil_append]
  exact ⟨_, _, hrun, rfl, hadd, ⟨_, rfl, rfl⟩, rfl, rfl, rfl⟩

theorem get_validator_mapping_go_preserve (env : Env)
    (accounts : Nat → Option StakedState) (required_stake : Nat) :
    ∀ (nodes : List Nat) (m m2 : Nat → Option Nat) (k : Nat),
    k ∉ nodes →
    get_validator_mapping_go env accounts required_stake nodes m = some m2 →
    m2 k = m k := by
  intro nodes
  induction nodes with
  | nil =>
    intro m m2 k _ h
    cases h
    rfl
  | cons addr rest ih =>
    intro m m2 k hk h
    simp only [List.mem_cons, not_or] at hk
    unfold get_validator_mapping_go at h
    cases ha : accounts addr with
    | none => rw [ha] at h; cases h
    | some account =>
      rw [ha] at h
      rw [ih _ _ _ hk.2 h]
      unfold mapInsert
      rw [if_neg hk.1]

theorem get_validator_mapping_go_jailed (env : Env)
    (accounts : Nat → Option StakedState) (required_stake : Nat)
    (hvp0 : env.vote_power 0 = 0) :
    ∀ (nodes : List Nat) (m m2 : Nat → Option Nat) (jaddr : Nat)
      (jacc : StakedState),
    jaddr ∈ nodes → accounts jaddr = some jacc → jacc.jailed = true →
    get_validator_mapping_go env accounts required_stake nodes m = some m2 →
    m2 jaddr = some 0 := by
  intro nodes
  induction nodes with
  | nil =>
    intro m m2 jaddr jacc hmem
    simp at hmem
  | cons addr rest ih =>
    intro m m2 jaddr jacc hmem hacc hj h
    unfold get_validator_mapping_go at h
    cases ha : accounts addr with
    | none => rw [ha] at h; cases h
    | some account =>
      rw [ha] at h
      by_cases hrest : jaddr ∈ rest
      · exact ih _ _ _ _ hrest hacc hj h
      · have heq : jaddr = addr := by
          rcases List.mem_cons.mp hmem with h2 | h2
          · exact h2
          · exact absurd h2 hrest
        subst heq
        have hsame : account = jacc := by
          rw [hacc] at ha
          exact (Option.some.inj ha).symm
        rw [get_validator_mapping_go_preserve env accounts required_stake
          rest _ _ _ hrest h]
        unfold mapInsert
        rw [if_pos rfl, hsame, hj]
        simp [hvp0]

/-- C1: the voting-power recomputation of `DeliverTx` for an accepted
transaction whose returned account belongs to a current validator or
to one whose power already changed in this block (such an account is
never jailed — validation rejects those): if the new bonded-derived
power is at least the required council-node stake and strictly above
the old power, the `power_changed_in_block` entry becomes the new
power; otherwise if the old power was at least the required stake and
the new power is strictly below it, the entry becomes zero; otherwise
it is untouched.  Moreover a jailed account always maps to zero voting
power in `get_validator_mapping`. -/
theorem deliver_power_rule (env : Env) (vvp pcb : Nat → Option Nat)
    (required : Nat) (account : StakedState)
    (accounts : Nat → Option StakedState) (nodes : List Nat)
    (m : Nat → Option Nat) (jaddr : Nat) (jacc : StakedState)
    (hvp0 : env.vote_power 0 = 0)
    (hj : account.jailed = false)
    (hin : (vvp account.address).isSome = true ∨
      (pcb account.address).isSome = true)
    (hjail : jacc.jailed = true)
    (hmem : jaddr ∈ nodes)
    (hacc : accounts jaddr = some jacc)
    (hmap : get_validator_mapping env accounts required nodes = some m) :
    (∃ pcb2, power_update env vvp pcb required (some account) = some pcb2 ∧
      pcb2 account.address =
        (if (vvp account.address).getD 0 < env.vote_power account.bonded ∧
            env.vote_power required ≤ env.vote_power account.bonded then
          some (env.vote_power account.bonded)
        else if env.vote_power required ≤ (vvp account.address).getD 0 ∧
            env.vote_power account.bonded < (vvp account.address).getD 0 then
          some 0
        else pcb account.address)) ∧
    m jaddr = some 0 := by
  constructor
  · have hc : ((vvp account.address).isSome ||
        (pcb account.address).isSome) = true := by
      rcases hin with h | h <;> simp [h]
    simp only [power_update, hc, if_true, hj, Bool.false_eq_true, if_false]
    by_cases hA : (vvp account.address).getD 0 < env.vote_power account.bonded ∧
        env.vote_power required ≤ env.vote_power account.bonded
    · rw [if_pos hA, if_pos hA]
      exact ⟨_, rfl, by unfold mapInsert; rw [if_pos rfl]⟩
    · rw [if_neg hA, if_neg hA]
      by_cases hB : env.vote_power required ≤ (vvp account.address).getD 0 ∧
          env.vote_power account.bonded < (vvp account.address).getD 0
      · rw [if_pos hB, if_pos hB]
        exact ⟨_, rfl, by unfold mapInsert; rw [if_pos rfl]⟩
      · rw [if_neg hB, if_neg hB]
        exact ⟨_, rfl, rfl⟩
  · exact get_validator_mapping_go_jailed env accounts required hvp0
      nodes _ m jaddr jacc hmem hacc hjail hmap

/-- Concrete chain state used by witnesses. -/
def st0 : ChainNodeState := ⟨0, ⟨100⟩, ⟨0, 0, 20, 0⟩⟩

/-- Concrete application state used by witnesses. -/
def app0 : ChainNodeApp :=
  ⟨fun _ => none, 0, [], [], 42, some st0,
    fun _ => none, fun _ => none, fun _ => none, false⟩

/-- Concrete staking account used by witnesses. -/
def acct0 : StakedState := ⟨5, 200, false, none⟩

/-- Concrete jailed staking account used by witnesses. -/
def jacc0 : StakedState := ⟨2, 100, true, none⟩

/-- A collaborator environment whose decoder rejects everything. -/
def envErr : Env :=
  ⟨fun _ => .error "x", fun _ _ _ _ => .error "y", fun r _ => r,
    fun _ => 0, fun n => n⟩

/-- A collaborator environment that accepts an `UnbondStakeTx` with
fee 7 and updated account `acct0`. -/
def envOk : Env :=
  ⟨fun _ => .ok .UnbondStakeTx, fun _ _ _ _ => .ok (7, some acct0),
    fun r _ => r + 1, fun _ => 99, fun n => n⟩

/-- The response produced by the failing decode of `envErr`. -/
def resp_decode_err : Resp := ⟨1, "failed to deserialize tx: x", []⟩

/-- A concrete voting-power map: address 5 has power 10. -/
def vvp1 : Nat → Option Nat := fun x => if x = 5 then some 10 else none

/-- A concrete account store: address 2 is the jailed `jacc0`. -/
def accounts1 : Nat → Option StakedState :=
  fun x => if x = 2 then some jacc0 else none

/-- C4 witness: `check_tx_no_mutation` on the failing decoder. -/
theorem check_tx_no_mutation_witness :
    app0 = app0 ∧
      ((resp_decode_err.code = 0 ∧ resp_decode_err.log = "" ∧
        (∃ txaux st min_fee res,
          envErr.decode [] = .ok txaux ∧
          app0.last_state = some st ∧
          calculate_fee st.network_params (List.length ([] : List Nat)) =
            some min_fee ∧
          envErr.verify txaux
            ⟨min_fee, app0.chain_hex_id, st.block_time,
              st.network_params.unbonding_period⟩
            app0.uncommitted_account_root_hash app0.db = .ok res)) ∨
      (resp_decode_err.code = 1 ∧ resp_decode_err.log ≠ "")) :=
  check_tx_no_mutation envErr app0 [] app0 resp_decode_err rfl

/-- C6 witness: `deliver_tx_rejected_no_mutation` on the failing
decoder. -/
theorem deliver_tx_rejected_no_mutation_witness :
    app0 = app0 ∧ resp_decode_err.events = [] :=
  deliver_tx_rejected_no_mutation envErr app0 [] app0 resp_decode_err rfl
    (by decide)

/-- C3 witness: `deliver_tx_accepted` on an accepted `UnbondStakeTx`
with fee 7 against `app0`. -/
theorem deliver_tx_accepted_witness :
    ∃ app2 resp2, deliver_tx envOk app0 [] = some (app2, resp2) ∧
      resp2.code = 0 ∧
      coinAdd st0.rewards_pool.remaining 7 =
        some (st0.rewards_pool.remaining + 7) ∧
      (∃ st2, app2.last_state = some st2 ∧
        st2.rewards_pool.remaining = st0.rewards_pool.remaining + 7) ∧
      app2.delivered_txs = app0.delivered_txs ++ [TxAux.UnbondStakeTx] ∧
      app2.filter = addToBlockFilter app0.filter
        (envOk.tx_id TxAux.UnbondStakeTx) ∧
      app2.rewards_pool_updated = true :=
  deliver_tx_accepted envOk app0 [] TxAux.UnbondStakeTx 7 (some acct0) st0 7
    rfl rfl rfl (by intro s hs; cases hs; rfl) (le_refl 7) (by decide)

/-- C1 witness: `deliver_power_rule` on the unjailed `acct0` (bonded
200, old power 10, required stake 20) and the jailed council node
`jacc0`. -/
theorem deliver_power_rule_witness :
    (∃ pcb2, power_update envOk vvp1 (fun _ => none) 20 (some acct0) =
        some pcb2 ∧
      pcb2 acct0.address =
        (if (vvp1 acct0.address).getD 0 < envOk.vote_power acct0.bonded ∧
            envOk.vote_power 20 ≤ envOk.vote_power acct0.bonded then
          some (envOk.vote_power acct0.bonded)
        else if envOk.vote_power 20 ≤ (vvp1 acct0.address).getD 0 ∧
            envOk.vote_power acct0.bonded < (vvp1 acct0.address).getD 0 then
          some 0
        else (fun _ => none : Nat → Option Nat) acct0.address)) ∧
    (mapInsert (fun _ => none) 2 0) 2 = some 0 :=
  deliver_power_rule envOk vvp1 (fun _ => none) 20 acct0 accounts1 [2]
    (mapInsert (fun _ => none) 2 0) 2 jacc0 rfl rfl (Or.inl (by decide))
    rfl (by decide) rfl rfl
